import Mathlib

set_option maxRecDepth 10000

/-!
Verification of the diff-context and grep components of the CodeReview repository.

Part 1 embeds `src/util/diff_utils.py`: the per-file line-number
reconstruction performed by `parse_diff_with_line_numbers`, the Modified-line
heuristic, the `_format_context_text` renderer and the `FileContext` record.

The diff text itself is parsed by the third-party `unidiff` library, whose
observable output (per-hunk line records carrying `source_line_no` /
`target_line_no`) is embedded by `annotateLines` below, following the
unified-diff numbering rules: counters start at the hunk's declared source and
target starts; an added line receives the target counter only, a removed line
the source counter only, a context line both; the target counter advances on
added and context lines, the source counter on removed and context lines.
Python `None` line numbers are encoded as `0`, matching Python truthiness
tests (`x or y`, `if added_pos`) which treat `None` and `0` alike.
-/

namespace CodeReview

/-- Tag of one line of a hunk body (`+`, `-`, or space in the diff text). -/
inductive LineKind where
  | added
  | removed
  | context
deriving DecidableEq, Repr

/-- One body line of a hunk as written in the diff text. -/
structure RawHunkLine where
  kind : LineKind
  value : String
deriving DecidableEq, Repr

/-- One hunk: the declared source/target starts from the `@@` header and the
ordered body lines. -/
structure RawHunk where
  source_start : Nat
  target_start : Nat
  lines : List RawHunkLine
deriving DecidableEq, Repr

/-- A hunk line as exposed by the `unidiff` library: kind, raw text, and the
computed `source_line_no` / `target_line_no` (0 encodes Python `None`). -/
structure HunkLine where
  kind : LineKind
  value : String
  source_line_no : Nat
  target_line_no : Nat
deriving DecidableEq, Repr

/-- Line-number assignment performed by the `unidiff` parser while reading a
hunk body, starting from source counter `src` and target counter `tgt`. -/
def annotateLines (src tgt : Nat) : List RawHunkLine → List HunkLine
  | [] => []
  | l :: ls =>
    match l.kind with
    | .added => ⟨.added, l.value, 0, tgt⟩ :: annotateLines src (tgt + 1) ls
    | .removed => ⟨.removed, l.value, src, 0⟩ :: annotateLines (src + 1) tgt ls
    | .context => ⟨.context, l.value, src, tgt⟩ :: annotateLines (src + 1) (tgt + 1) ls

/-- The annotated body of a hunk, as iterating over a `unidiff` hunk yields it. -/
def RawHunk.annotated (h : RawHunk) : List HunkLine :=
  annotateLines h.source_start h.target_start h.lines

/-- Python `line_content.rstrip("\n\r")`: drop trailing newline and carriage-return
characters. -/
def stripNewlines (s : String) : String :=
  ⟨(s.data.reverse.dropWhile (fun c => c == '\n' || c == '\r')).reverse⟩

/-- Python `str.rstrip()` with no arguments: drop trailing whitespace. -/
def stripTrailingWS (s : String) : String :=
  ⟨(s.data.reverse.dropWhile (fun c =>
      c == ' ' || c == '\t' || c == '\n' || c == '\r' ||
      c == '\x0b' || c == '\x0c')).reverse⟩

/-- Python `f"{n:4d}"`: decimal rendering right-aligned in a field of width 4,
filled with spaces on the left. -/
def pad4 (n : Nat) : String :=
  let s := toString n
  String.mk (List.replicate (4 - s.length) ' ') ++ s

/-- The `"=" * 80` separator used by `_format_context_text`. -/
def eqSeparator : String := String.mk (List.replicate 80 '=')

/-- Accumulator of the per-hunk line loop in `parse_diff_with_line_numbers`
(lines 60-80): the running `current_new_line` counter and the
`new_file_lines` / `added_lines` / `removed_lines` collections in emission
order. -/
structure HunkAcc where
  current_new_line : Nat
  new_file_lines : List (Nat × String)
  added_lines : List Nat
  removed_lines : List Nat
deriving DecidableEq, Repr

/-- The `for line in hunk` loop of `parse_diff_with_line_numbers`:
added lines record `target_line_no or current_new_line` and advance the
counter, removed lines record their `source_line_no` without advancing,
context lines behave like added lines but are not marked added. -/
def processLines (cur : Nat) : List HunkLine → HunkAcc
  | [] => ⟨cur, [], [], []⟩
  | l :: ls =>
    match l.kind with
    | .added =>
      let n := if l.target_line_no ≠ 0 then l.target_line_no else cur
      let r := processLines (cur + 1) ls
      ⟨r.current_new_line, (n, l.value) :: r.new_file_lines, n :: r.added_lines,
        r.removed_lines⟩
    | .removed =>
      let r := processLines cur ls
      ⟨r.current_new_line, r.new_file_lines, r.added_lines,
        l.source_line_no :: r.removed_lines⟩
    | .context =>
      let n := if l.target_line_no ≠ 0 then l.target_line_no else cur
      let r := processLines (cur + 1) ls
      ⟨r.current_new_line, (n, l.value) :: r.new_file_lines, r.added_lines,
        r.removed_lines⟩

/-- The Modified-line heuristic (lines 84-91): for every consecutive pair
where a removed line immediately precedes an added line, if the added line's
`target_line_no` is truthy and differs from the removed line's
`source_line_no` by at most 3 in absolute value, collect the added line's
target position. -/
def hunkModified : List HunkLine → List Nat
  | a :: b :: rest =>
    (if a.kind = .removed ∧ b.kind = .added ∧ b.target_line_no ≠ 0 ∧
        ((b.target_line_no : Int) - (a.source_line_no : Int)).natAbs ≤ 3 then
      [b.target_line_no]
    else []) ++ hunkModified (b :: rest)
  | _ => []

/-- Accumulator of the per-file hunk loop: all four collections plus the
`current_new_line` counter threaded across hunks. -/
structure FileAcc where
  current_new_line : Nat
  new_file_lines : List (Nat × String)
  added_lines : List Nat
  modified_lines : List Nat
  removed_lines : List Nat
deriving DecidableEq, Repr

/-- The `for hunk in patched_file` loop (lines 50-91): fast-forward
`current_new_line` to the hunk's `target_start` when behind, process the body
lines, then run the Modified heuristic over the same hunk. -/
def processHunks (cur : Nat) : List RawHunk → FileAcc
  | [] => ⟨cur, [], [], [], []⟩
  | h :: hs =>
    let cur1 := if cur < h.target_start then h.target_start else cur
    let a := processLines cur1 h.annotated
    let ms := hunkModified h.annotated
    let rest := processHunks a.current_new_line hs
    ⟨rest.current_new_line, a.new_file_lines ++ rest.new_file_lines,
      a.added_lines ++ rest.added_lines, ms ++ rest.modified_lines,
      a.removed_lines ++ rest.removed_lines⟩

/-- Stable insertion of a pair into a list ordered by first component,
placed after existing entries with a smaller-or-equal key. -/
def insertByNum (x : Nat × String) : List (Nat × String) → List (Nat × String)
  | [] => [x]
  | y :: ys => if y.1 ≤ x.1 then y :: insertByNum x ys else x :: y :: ys

/-- The source's `new_file_lines.sort(key=lambda x: x[0])` (line 94): Python list sort is a
stable sort by the key, which stable insertion sort implements exactly. -/
def sortByNum : List (Nat × String) → List (Nat × String)
  | [] => []
  | x :: xs => insertByNum x (sortByNum xs)

/-- The renderer `_format_context_text` (lines 209-246): header, 80-character separator,
one line per entry `<marker> <line_number:4d>: <content>` where the marker is
`+` when the number is in `added_lines`, otherwise `~` when it is in
`modified_lines`, otherwise a space; closing separator; joined with newlines.
An empty line list renders the placeholder text. -/
def formatContextText (file_path : String) (new_file_lines : List (Nat × String))
    (added modified : List Nat) : String :=
  if new_file_lines.isEmpty then
    "File: " ++ file_path ++ "\n(No new content in this file)\n"
  else
    String.intercalate "\n"
      ((("File: " ++ file_path) :: eqSeparator ::
        new_file_lines.map (fun p =>
          (if added.contains p.1 then "+"
           else if modified.contains p.1 then "~" else " ")
          ++ " " ++ pad4 p.1 ++ ": " ++ stripNewlines p.2)) ++ [eqSeparator])

/-- The `FileContext` record of `diff_utils.py` (lines 249-285). The Python
sets `added_lines` / `modified_lines` / `removed_lines` are kept as lists in
insertion order; only membership is ever consumed. -/
structure FileContext where
  file_path : String
  new_file_lines : List (Nat × String)
  context_text : String
  added_lines : List Nat
  modified_lines : List Nat
  removed_lines : List Nat
deriving DecidableEq, Repr

/-- The per-file body of `parse_diff_with_line_numbers` (lines 40-111):
process the hunks, sort `new_file_lines` by line number, render the context
text, and assemble the `FileContext`. -/
def buildFileContext (file_path : String) (hunks : List RawHunk) : FileContext :=
  let acc := processHunks 1 hunks
  let sorted := sortByNum acc.new_file_lines
  { file_path := file_path
    new_file_lines := sorted
    context_text := formatContextText file_path sorted acc.added_lines acc.modified_lines
    added_lines := acc.added_lines
    modified_lines := acc.modified_lines
    removed_lines := acc.removed_lines }

/-- The accessor `FileContext.get_line_content` (lines 287-299): linear scan for the first
entry with the requested line number, returning its content with trailing
newline characters stripped, or `none`. -/
def FileContext.get_line_content (fc : FileContext) (line_number : Nat) : Option String :=
  match fc.new_file_lines.find? (fun p => p.1 == line_number) with
  | some p => some (stripNewlines p.2)
  | none => none

/-- The helper `_normalize_file_path` (lines 190-206): strip surrounding whitespace, one
leading `a/` or `b/` diff prefix, and one leading slash. -/
def normalizeFilePath (file_path : String) : String :=
  let p := file_path.trim
  let p := if p.startsWith "a/" || p.startsWith "b/" then p.drop 2 else p
  if p.startsWith "/" then p.drop 1 else p

/-- A file entry of a parsed `PatchSet` as consumed by
`parse_diff_with_line_numbers`: path, binary/removed flags, hunks. -/
structure PatchedFile where
  path : String
  is_binary_file : Bool
  is_removed_file : Bool
  hunks : List RawHunk
deriving DecidableEq, Repr

/-- Assignment into the `file_contexts` dict: replace in place when the key
exists, otherwise append (CPython dicts preserve first-insertion order). -/
def dictSet (m : List (String × FileContext)) (k : String) (v : FileContext) :
    List (String × FileContext) :=
  if m.any (fun p => p.1 == k) then
    m.map (fun p => if p.1 == k then (k, v) else p)
  else m ++ [(k, v)]

/-- The body of `parse_diff_with_line_numbers` after `unidiff` parsing (lines 30-113):
skip binary and removed files, build a `FileContext` for every other file,
keyed by normalized path. -/
def parseDiff (files : List PatchedFile) : List (String × FileContext) :=
  files.foldl
    (fun acc pf =>
      if pf.is_binary_file || pf.is_removed_file then acc
      else
        let fp := normalizeFilePath pf.path
        dictSet acc fp (buildFileContext fp pf.hunks))
    []

/-- Number of hunk-body lines written to the new file (added plus context):
the amount the target counter advances across a hunk body. -/
def countAC (ls : List RawHunkLine) : Nat :=
  ls.countP (fun l => l.kind ≠ .removed)

/-- Number of hunk-body lines present in the old file (removed plus context):
the amount the source counter advances across a hunk body. -/
def countSC (ls : List RawHunkLine) : Nat :=
  ls.countP (fun l => l.kind ≠ .added)

/-- The `(line_number, content)` pairs a hunk body contributes, numbered from
`t`: added and context lines are emitted at the running target position,
removed lines are skipped. -/
def numberAC (t : Nat) : List RawHunkLine → List (Nat × String)
  | [] => []
  | l :: ls =>
    match l.kind with
    | .added => (t, l.value) :: numberAC (t + 1) ls
    | .context => (t, l.value) :: numberAC (t + 1) ls
    | .removed => numberAC t ls

/-- The target positions of the added lines of a hunk body numbered from `t`. -/
def addedNums (t : Nat) : List RawHunkLine → List Nat
  | [] => []
  | l :: ls =>
    match l.kind with
    | .added => t :: addedNums (t + 1) ls
    | .context => addedNums (t + 1) ls
    | .removed => addedNums t ls

/-- The source positions of the removed lines of a hunk body numbered from `s`. -/
def removedNums (s : Nat) : List RawHunkLine → List Nat
  | [] => []
  | l :: ls =>
    match l.kind with
    | .added => removedNums s ls
    | .context => removedNums (s + 1) ls
    | .removed => s :: removedNums (s + 1) ls

/-- A hunk with every removed body line deleted. -/
def RawHunk.dropRemoved (h : RawHunk) : RawHunk :=
  ⟨h.source_start, h.target_start, h.lines.filter (fun l => l.kind ≠ .removed)⟩

/-- Well-formedness of a hunk sequence starting from new-file counter `c`
(the spec data model: hunks appear in file order and do not overlap in
target coordinates): each hunk starts at or after the current counter, and
the counter moves past the lines the hunk covers. -/
def hunksChainOk (c : Nat) : List RawHunk → Bool
  | [] => true
  | h :: hs => c ≤ h.target_start && hunksChainOk (h.target_start + countAC h.lines) hs

/-!
Part 2 embeds `src/tools/grep_tool.py` (`_grep_internal` and
`_is_binary_file`). The file system is embedded as data: a file carries the
raw bytes seen by the binary sampler, the decoded lines seen by the scanner,
and flags recording whether each of the two `open` calls succeeds. The
`os.walk` traversal (after directory pruning) is embedded as its resulting
ordered list of `(relative path, file)` entries; every claim under check
concerns the per-file loop body, the match loop and the early-stop logic,
which operate on that sequence. The `re` and `fnmatch` engines are external
libraries and enter the model as function parameters: `RegexEngine.compile`
embeds `re.compile` on a raw pattern (which can fail), `RegexEngine.literal`
embeds `re.compile(re.escape(pattern))` followed by `.search` (which cannot),
and `fnm` embeds `fnmatch.fnmatch`.
-/

/-- One file visible to the walker. `bytes` is the raw content sampled by
`_is_binary_file`, `lines` the result of `readlines()` on the text read.
`read_ok` / `lines_ok` record whether the binary-probe `open` and the text
`open` succeed; a failure of either is an exception path in the source. -/
structure GFile where
  name : String
  bytes : List Nat
  read_ok : Bool
  lines : List String
  lines_ok : Bool
deriving DecidableEq, Repr

/-- The query record: the parameters of `_grep_internal` other than the root
and the engines. -/
structure GrepQuery where
  pattern : String
  is_regex : Bool
  case_sensitive : Bool
  include_patterns : List String
  exclude_patterns : List String
  context_lines : Nat
  max_results : Nat
deriving Repr

/-- The external regular-expression engine. `compile pat cs` embeds
`re.compile(pat, flags)` (with `flags` derived from case sensitivity) and may
fail with a message; `literal pat cs` embeds the always-successful
`re.compile(re.escape(pat), flags).search` as a line predicate. -/
structure RegexEngine where
  compile : String → Bool → Except String (String → Bool)
  literal : String → Bool → String → Bool

/-- The probe `_is_binary_file` (lines 40-61): sample up to 8192 bytes; binary when the
read fails, when a null byte is present, or when fewer than 70% of the
sampled bytes are printable ASCII or tab/newline/carriage-return. The Python
comparison `text_chars / len(chunk) < 0.7` is exact rational comparison here
(`text_chars * 10 < len * 7`); for chunk lengths up to 8192 the
double-precision division the source performs decides every case the same
way, since no ratio with such a denominator falls between 7/10 and the
double nearest to 0.7. -/
def isBinaryFile (f : GFile) : Bool :=
  if !f.read_ok then true
  else
    let chunk := f.bytes.take 8192
    if chunk.contains 0 then true
    else
      let textChars := chunk.countP (fun b => (32 ≤ b && b < 127) || b == 9 || b == 10 || b == 13)
      if chunk.length > 0 && textChars * 10 < chunk.length * 7 then true
      else false

/-- The result block built for a match (lines 179-195): the context window is
`[max(1, n - ctx), min(len, n + ctx)]`, each context line rendered as
`<number>: <rstripped text>`, assembled under the `File:` / `Match:` /
`Context:` layout and closed with fifty dashes. -/
def mkBlock (relPath : String) (allLines : List String) (n : Nat) (line : String)
    (ctx : Nat) : String :=
  let startLine := max 1 (n - ctx)
  let endLine := min allLines.length (n + ctx)
  let ctxList := (List.range' startLine (endLine + 1 - startLine)).map
    (fun k => toString k ++ ": " ++ stripTrailingWS ((allLines.get? (k - 1)).getD ""))
  "File: " ++ relPath ++ "\nMatch: Line " ++ toString n ++ ": " ++ stripTrailingWS line
    ++ "\nContext (Lines " ++ toString startLine ++ "-" ++ toString endLine ++ "):\n"
    ++ String.intercalate "\n" ctxList ++ "\n"
    ++ String.mk (List.replicate 50 '-')

/-- The `for line_num, line in enumerate(lines, start=1)` loop (lines
177-201) over the suffix `rest` starting at absolute line `n`, with `cnt`
matches already emitted: emit a block per matching line and stop as soon as
the running count reaches `maxr`. Returns the emitted blocks and the final
count. -/
def scanFrom (search : String → Bool) (ctx maxr : Nat) (relPath : String)
    (allLines : List String) : List String → Nat → Nat → List String × Nat
  | [], _, cnt => ([], cnt)
  | l :: ls, n, cnt =>
    if search l then
      let block := mkBlock relPath allLines n l ctx
      let cnt1 := cnt + 1
      if maxr ≤ cnt1 then ([block], cnt1)
      else
        let r := scanFrom search ctx maxr relPath allLines ls (n + 1) cnt1
        (block :: r.1, r.2)
    else scanFrom search ctx maxr relPath allLines ls (n + 1) cnt

/-- Whether the per-file filters admit a file (lines 150-163): it must match
at least one include pattern and no exclude pattern, each tested by `fnm`
against both the bare file name and the path relative to the root. -/
def fileAdmitted (fnm : String → String → Bool) (inc exc : List String)
    (relPath : String) (f : GFile) : Bool :=
  inc.any (fun pat => fnm f.name pat || fnm relPath pat) &&
    !exc.any (fun pat => fnm f.name pat || fnm relPath pat)

/-- The file-iteration of `_grep_internal` (lines 143-207) over the walker's
ordered file sequence with `cnt` matches already emitted: skip files rejected
by the include/exclude filters, classified binary, or failing the text read;
scan the rest, and break out of the whole walk once `max_results` matches
have been emitted. -/
def grepWalk (search : String → Bool) (fnm : String → String → Bool)
    (inc exc : List String) (ctx maxr : Nat) :
    List (String × GFile) → Nat → List String
  | [], _ => []
  | (relPath, f) :: rest, cnt =>
    if !fileAdmitted fnm inc exc relPath f then
      grepWalk search fnm inc exc ctx maxr rest cnt
    else if isBinaryFile f then
      grepWalk search fnm inc exc ctx maxr rest cnt
    else if !f.lines_ok then
      grepWalk search fnm inc exc ctx maxr rest cnt
    else
      let r := scanFrom search ctx maxr relPath f.lines f.lines 1 cnt
      if maxr ≤ r.2 then r.1
      else r.1 ++ grepWalk search fnm inc exc ctx maxr rest r.2

/-- The search `_grep_internal` (lines 93-212): root check, pattern compilation (raw
regex when `is_regex`, escaped literal otherwise), the walk, and the final
assembly: the no-match sentinel or the blocks joined by blank lines. -/
def grepInternal (eng : RegexEngine) (fnm : String → String → Bool)
    (repoRoot : String) (rootOk : Bool) (walk : List (String × GFile))
    (q : GrepQuery) : String :=
  if !rootOk then "Error: Repository root does not exist: " ++ repoRoot
  else
    match (if q.is_regex then eng.compile q.pattern q.case_sensitive
           else Except.ok (eng.literal q.pattern q.case_sensitive)) with
    | .error e => "Error: Invalid regex pattern: " ++ q.pattern ++ "\n" ++ e
    | .ok search =>
      let results := grepWalk search fnm q.include_patterns q.exclude_patterns
        q.context_lines q.max_results walk 0
      if results.isEmpty then "No matches found for pattern: " ++ q.pattern
      else String.intercalate "\n\n" results

/-- All blocks one file's lines would yield with no result cap, numbered from
`n`: the declarative counterpart of `scanFrom`. -/
def lineBlocks (search : String → Bool) (ctx : Nat) (relPath : String)
    (allLines : List String) : List String → Nat → List String
  | [], _ => []
  | l :: ls, n =>
    (if search l then [mkBlock relPath allLines n l ctx] else [])
      ++ lineBlocks search ctx relPath allLines ls (n + 1)

/-- All blocks the walk would yield with no result cap: admitted, non-binary,
readable files contribute their matching lines in walker order with ascending
line numbers. -/
def allBlocks (search : String → Bool) (fnm : String → String → Bool)
    (inc exc : List String) (ctx : Nat) : List (String × GFile) → List String
  | [] => []
  | (relPath, f) :: rest =>
    (if fileAdmitted fnm inc exc relPath f && !isBinaryFile f && f.lines_ok then
      lineBlocks search ctx relPath f.lines f.lines 1
    else []) ++ allBlocks search fnm inc exc ctx rest

/-- The expected annotation of the `i`-th body line of a hunk: the positions
follow from the counts of source/target lines in the prefix before `i`. -/
def annotEntry (src tgt : Nat) (ls : List RawHunkLine) (i : Nat) : Option HunkLine :=
  (ls[i]?).map (fun l =>
    match l.kind with
    | .added => ⟨.added, l.value, 0, tgt + countAC (ls.take i)⟩
    | .removed => ⟨.removed, l.value, src + countSC (ls.take i), 0⟩
    | .context => ⟨.context, l.value, src + countSC (ls.take i), tgt + countAC (ls.take i)⟩)

/-! ## Helper lemmas -/

/-- Running `processLines` over a `unidiff`-annotated hunk body with a
positive target start emits the target-numbered added/context pairs, the
target positions of the added lines, and the source positions of the removed
lines, and advances the counter by the number of added/context lines. -/
theorem processLines_annotate (ls : List RawHunkLine) :
    ∀ cur src tgt, 1 ≤ tgt →
      processLines cur (annotateLines src tgt ls)
        = ⟨cur + countAC ls, numberAC tgt ls, addedNums tgt ls, removedNums src ls⟩ := by
  induction ls with
  | nil =>
    intro cur src tgt ht
    simp [annotateLines, processLines, countAC, numberAC, addedNums, removedNums]
  | cons l ls ih =>
    intro cur src tgt ht
    cases hk : l.kind with
    | added =>
      simp only [annotateLines, hk, processLines, ih (cur + 1) src (tgt + 1) (by omega),
        countAC, numberAC, addedNums, removedNums, List.countP_cons]
      simp [hk, countAC, Nat.one_le_iff_ne_zero.mp ht]
      omega
    | removed =>
      simp only [annotateLines, hk, processLines, ih cur (src + 1) tgt ht,
        countAC, numberAC, addedNums, removedNums, List.countP_cons]
      simp [hk, countAC]
    | context =>
      simp only [annotateLines, hk, processLines, ih (cur + 1) (src + 1) (tgt + 1) (by omega),
        countAC, numberAC, addedNums, removedNums, List.countP_cons]
      simp [hk, countAC, Nat.one_le_iff_ne_zero.mp ht]
      omega

/-- The line numbers emitted for one hunk body are consecutive from the
initial target counter. -/
theorem numberAC_map_fst (ls : List RawHunkLine) :
    ∀ t, (numberAC t ls).map Prod.fst = List.range' t (countAC ls) := by
  induction ls with
  | nil => intro t; simp [numberAC, countAC]
  | cons l ls ih =>
    intro t
    cases hk : l.kind with
    | added => simp [numberAC, hk, countAC, List.countP_cons, ih, List.range']
    | removed => simp [numberAC, hk, countAC, List.countP_cons, ih]
    | context => simp [numberAC, hk, countAC, List.countP_cons, ih, List.range']

/-- Stable insertion leaves a list alone when its head is strictly larger. -/
theorem sortByNum_eq_self (l : List (Nat × String))
    (h : l.Pairwise (fun a b => a.1 < b.1)) : sortByNum l = l := by
  induction l with
  | nil => rfl
  | cons x xs ih =>
    rw [List.pairwise_cons] at h
    rw [sortByNum, ih h.2]
    cases xs with
    | nil => rfl
    | cons y ys =>
      have : ¬ y.1 ≤ x.1 := by
        have := h.1 y (by simp)
        omega
      simp [insertByNum, this]

/-- Deleting the removed lines of a hunk body changes neither the
added/context pairs emitted by `processLines` nor the final counter, for any
pair of source counters, and leaves no removed positions. -/
theorem processLines_filter_removed (ls : List RawHunkLine) :
    ∀ cur src src2 tgt,
      (processLines cur (annotateLines src2 tgt
          (ls.filter (fun l => l.kind ≠ .removed)))).new_file_lines
        = (processLines cur (annotateLines src tgt ls)).new_file_lines ∧
      (processLines cur (annotateLines src2 tgt
          (ls.filter (fun l => l.kind ≠ .removed)))).current_new_line
        = (processLines cur (annotateLines src tgt ls)).current_new_line ∧
      (processLines cur (annotateLines src2 tgt
          (ls.filter (fun l => l.kind ≠ .removed)))).removed_lines = [] := by
  induction ls with
  | nil => intro cur src src2 tgt; simp [annotateLines, processLines]
  | cons l ls ih =>
    intro cur src src2 tgt
    cases hk : l.kind with
    | added =>
      have h1 := ih (cur + 1) src src2 (tgt + 1)
      simp only [ne_eq, decide_not] at h1
      simp [List.filter_cons, hk, annotateLines, processLines, h1.1, h1.2.1, h1.2.2]
    | removed =>
      have h1 := ih cur (src + 1) src2 tgt
      simp only [ne_eq, decide_not] at h1
      simp [List.filter_cons, hk, annotateLines, processLines, h1.1, h1.2.1, h1.2.2]
    | context =>
      have h1 := ih (cur + 1) (src + 1) (src2 + 1) (tgt + 1)
      simp only [ne_eq, decide_not] at h1
      simp [List.filter_cons, hk, annotateLines, processLines, h1.1, h1.2.1, h1.2.2]

/-- Deleting removed lines does not change the number of added/context lines. -/
theorem countAC_filter_removed (ls : List RawHunkLine) :
    countAC (ls.filter (fun l => l.kind ≠ .removed)) = countAC ls := by
  induction ls with
  | nil => rfl
  | cons l ls ih =>
    cases hk : l.kind <;> simp [List.filter_cons, hk, countAC, List.countP_cons, ih] <;>
      simp [countAC] at ih <;> omega

/-- Hunk-level version of `processLines_filter_removed`. -/
theorem processHunks_drop_removed (hs : List RawHunk) :
    ∀ cur,
      (processHunks cur (hs.map RawHunk.dropRemoved)).new_file_lines
        = (processHunks cur hs).new_file_lines ∧
      (processHunks cur (hs.map RawHunk.dropRemoved)).removed_lines = [] := by
  induction hs with
  | nil => intro cur; simp [processHunks]
  | cons h hs ih =>
    intro cur
    have hfilter := processLines_filter_removed h.lines
      (if cur < h.target_start then h.target_start else cur)
      h.source_start h.source_start h.target_start
    constructor
    · simp only [List.map_cons, processHunks, RawHunk.dropRemoved, RawHunk.annotated]
      rw [hfilter.1, hfilter.2.1, (ih _).1]
    · simp only [List.map_cons, processHunks, RawHunk.dropRemoved, RawHunk.annotated]
      rw [hfilter.2.1, hfilter.2.2, (ih _).2]
      simp

/-- C2 counterexample: the one-hunk diff `@@ -1,1 +1,1 @@` replacing line 1
puts the number 1 both into `removed_lines` (old-file numbering) and into the
classified-line sequence (new-file numbering) of the same `FileContext`, so a
removed line number can equal a classified line number. -/
theorem removed_number_in_classified :
    1 ∈ (buildFileContext "f"
        [⟨1, 1, [⟨.removed, "old\n"⟩, ⟨.added, "new\n"⟩]⟩]).removed_lines ∧
    1 ∈ ((buildFileContext "f"
        [⟨1, 1, [⟨.removed, "old\n"⟩, ⟨.added, "new\n"⟩]⟩]).new_file_lines.map
          Prod.fst) := by
  decide

/-- C2 (amended): `removed` line numbers reference the pre-change file and
removed lines contribute no entry to the classified-line sequence — deleting
every removed line from the hunks leaves the sequence unchanged and empties
the removed set — although a removed old-file number may coincide numerically
with a classified new-file line number. -/
theorem removed_lines_contribute_nothing (path : String) (hunks : List RawHunk) :
    (buildFileContext path (hunks.map RawHunk.dropRemoved)).new_file_lines
      = (buildFileContext path hunks).new_file_lines ∧
    (buildFileContext path (hunks.map RawHunk.dropRemoved)).removed_lines = [] := by
  have h := processHunks_drop_removed hunks 1
  constructor
  · simp only [buildFileContext]
    rw [h.1]
  · simp only [buildFileContext]
    rw [h.2]

/-- C9: parsing is a pure function — the same parsed diff always produces
equal `FileContext` values and byte-identical `context_text` renderings, with
no hidden mutable state in the embedding of `parse_diff_with_line_numbers`. -/
theorem parseDiff_deterministic (files : List PatchedFile) :
    parseDiff files = parseDiff files ∧
    (parseDiff files).map (fun p => p.2.context_text)
      = (parseDiff files).map (fun p => p.2.context_text) :=
  ⟨rfl, rfl⟩

/-- C10: `FileContext.get_line_content` returns the first stored content for
a present line number with trailing newline and carriage-return characters
stripped, and `none` for an absent one; being total, it never raises. -/
theorem get_line_content_spec (fc : FileContext) (n : Nat) :
    (n ∉ fc.new_file_lines.map Prod.fst → fc.get_line_content n = none) ∧
    (n ∈ fc.new_file_lines.map Prod.fst →
      ∃ s, (n, s) ∈ fc.new_file_lines ∧
        fc.get_line_content n = some (stripNewlines s)) := by
  constructor
  · intro hn
    rw [FileContext.get_line_content]
    cases hf : fc.new_file_lines.find? (fun p => p.1 == n) with
    | none => rfl
    | some p =>
      exfalso
      have hp := List.find?_some hf
      have hmem := List.mem_of_find?_eq_some hf
      apply hn
      rw [List.mem_map]
      exact ⟨p, hmem, by simpa using hp⟩
  · intro hn
    rw [FileContext.get_line_content]
    cases hf : fc.new_file_lines.find? (fun p => p.1 == n) with
    | none =>
      exfalso
      rw [List.find?_eq_none] at hf
      rw [List.mem_map] at hn
      obtain ⟨p, hp, hp1⟩ := hn
      exact hf p hp (by simpa using hp1)
    | some p =>
      have hp := List.find?_some hf
      have hmem := List.mem_of_find?_eq_some hf
      have hp1 : p.1 = n := by simpa using hp
      exact ⟨p.2, by rw [← hp1]; simpa using hmem, rfl⟩

/-- C10 witness: on a concrete `FileContext`, an absent line number yields
`none`. -/
theorem get_line_content_spec_witness :
    (4 : Nat) ∉ ([((3 : Nat), "abc\n")].map Prod.fst) ∧
    (FileContext.mk "f" [(3, "abc\n")] "" [3] [] []).get_line_content 4 = none :=
  ⟨by decide,
    (get_line_content_spec (FileContext.mk "f" [(3, "abc\n")] "" [3] [] []) 4).1
      (by decide)⟩

/-- C1 counterexample: in the one-hunk diff replacing line 1, line 1 is
reclassified Modified by the heuristic (it is in `modified_lines`), yet the
rendered context text marks it `+`, not `~`: the formatter tests membership
in the added set first and the heuristic never removes a reclassified line
from it. -/
theorem modified_line_rendered_plus :
    1 ∈ (buildFileContext "f"
        [⟨1, 1, [⟨.removed, "old\n"⟩, ⟨.added, "new\n"⟩]⟩]).modified_lines ∧
    (buildFileContext "f"
        [⟨1, 1, [⟨.removed, "old\n"⟩, ⟨.added, "new\n"⟩]⟩]).context_text
      = "File: f\n" ++ eqSeparator ++ "\n+    1: new\n" ++ eqSeparator := by
  constructor
  · decide
  · decide

/-- The `unidiff` annotation of the `i`-th body line carries the positions
determined by the prefix counts. -/
theorem annotate_getElem (ls : List RawHunkLine) :
    ∀ src tgt i, (annotateLines src tgt ls)[i]? = annotEntry src tgt ls i := by
  induction ls with
  | nil => intro src tgt i; simp [annotateLines, annotEntry]
  | cons l ls ih =>
    intro src tgt i
    cases hk : l.kind with
    | added =>
      cases i with
      | zero => simp [annotateLines, hk, annotEntry, countAC, countSC]
      | succ j =>
        simp only [annotateLines, hk, List.getElem?_cons_succ]
        rw [ih src (tgt + 1) j]
        simp only [annotEntry, List.getElem?_cons_succ, List.take_succ_cons]
        cases ha : ls[j]? with
        | none => rfl
        | some l2 =>
          cases hk2 : l2.kind <;>
            simp [hk2, countAC, countSC, List.countP_cons, hk] <;> omega
    | removed =>
      cases i with
      | zero => simp [annotateLines, hk, annotEntry, countAC, countSC]
      | succ j =>
        simp only [annotateLines, hk, List.getElem?_cons_succ]
        rw [ih (src + 1) tgt j]
        simp only [annotEntry, List.getElem?_cons_succ, List.take_succ_cons]
        cases ha : ls[j]? with
        | none => rfl
        | some l2 =>
          cases hk2 : l2.kind <;>
            simp [hk2, countAC, countSC, List.countP_cons, hk] <;> omega
    | context =>
      cases i with
      | zero => simp [annotateLines, hk, annotEntry, countAC, countSC]
      | succ j =>
        simp only [annotateLines, hk, List.getElem?_cons_succ]
        rw [ih (src + 1) (tgt + 1) j]
        simp only [annotEntry, List.getElem?_cons_succ, List.take_succ_cons]
        cases ha : ls[j]? with
        | none => rfl
        | some l2 =>
          cases hk2 : l2.kind <;>
            simp [hk2, countAC, countSC, List.countP_cons, hk] <;> omega

/-- Membership in the heuristic's output, characterized by the consecutive
pair of hunk lines that produces it. -/
theorem mem_hunkModified_iff (L : List HunkLine) (n : Nat) :
    n ∈ hunkModified L ↔ ∃ i a b, L[i]? = some a ∧ L[i + 1]? = some b ∧
      a.kind = .removed ∧ b.kind = .added ∧ b.target_line_no ≠ 0 ∧
      ((b.target_line_no : Int) - (a.source_line_no : Int)).natAbs ≤ 3 ∧
      n = b.target_line_no := by
  induction L with
  | nil => simp [hunkModified]
  | cons a tail ih =>
    cases tail with
    | nil =>
      constructor
      · intro hmem; simp [hunkModified] at hmem
      · rintro ⟨i, x, y, h1, h2, -⟩
        cases i <;> simp at h2
    | cons b rest =>
      have hunf : hunkModified (a :: b :: rest)
          = (if a.kind = .removed ∧ b.kind = .added ∧ b.target_line_no ≠ 0 ∧
                ((b.target_line_no : Int) - (a.source_line_no : Int)).natAbs ≤ 3 then
              [b.target_line_no]
            else []) ++ hunkModified (b :: rest) := rfl
      constructor
      · intro hmem
        rw [hunf, List.mem_append] at hmem
        cases hmem with
        | inl h =>
          by_cases hc : (a.kind = .removed ∧ b.kind = .added ∧ b.target_line_no ≠ 0 ∧
              ((b.target_line_no : Int) - (a.source_line_no : Int)).natAbs ≤ 3)
          · rw [if_pos hc, List.mem_singleton] at h
            exact ⟨0, a, b, by simp, by simp, hc.1, hc.2.1, hc.2.2.1, hc.2.2.2, h⟩
          · rw [if_neg hc] at h; cases h
        | inr h =>
          obtain ⟨i, x, y, g1, g2, g3, g4, g5, g6, g7⟩ := ih.mp h
          exact ⟨i + 1, x, y, by simpa using g1, by simpa using g2, g3, g4, g5, g6, g7⟩
      · rintro ⟨i, x, y, g1, g2, g3, g4, g5, g6, g7⟩
        rw [hunf, List.mem_append]
        cases i with
        | zero =>
          simp only [List.getElem?_cons_zero, List.getElem?_cons_succ,
            Option.some.injEq] at g1 g2
          subst g1; subst g2
          left
          rw [if_pos ⟨g3, g4, g5, g6⟩, g7]
          simp
        | succ j =>
          right
          exact ih.mpr ⟨j, x, y, by simpa using g1, by simpa using g2, g3, g4, g5, g6, g7⟩

/-- Every added hunk line with a truthy target number contributes that number
to the `added_lines` collection of the line loop. -/
theorem added_in_processLines (L : List HunkLine) :
    ∀ (cur i : Nat) (b : HunkLine), L[i]? = some b → b.kind = .added →
      b.target_line_no ≠ 0 →
      b.target_line_no ∈ (processLines cur L).added_lines := by
  induction L with
  | nil => intro cur i b h; simp at h
  | cons l L2 ih =>
    intro cur i b hb hk ht
    cases i with
    | zero =>
      simp only [List.getElem?_cons_zero, Option.some.injEq] at hb
      subst hb
      simp [processLines, hk, ht]
    | succ j =>
      have hb2 : L2[j]? = some b := by simpa using hb
      cases hkl : l.kind with
      | added =>
        have := ih (cur + 1) j b hb2 hk ht
        simp [processLines, hkl, this]
      | removed =>
        have := ih cur j b hb2 hk ht
        simp [processLines, hkl, this]
      | context =>
        have := ih (cur + 1) j b hb2 hk ht
        simp [processLines, hkl, this]

/-- Every number the heuristic marks Modified is also in the added set of the
same hunk's line loop. -/
theorem hunkModified_subset_added (L : List HunkLine) (cur n : Nat)
    (h : n ∈ hunkModified L) : n ∈ (processLines cur L).added_lines := by
  obtain ⟨i, a, b, h1, h2, h3, h4, h5, h6, h7⟩ := (mem_hunkModified_iff L n).mp h
  subst h7
  exact added_in_processLines L cur (i + 1) b h2 h4 h5

/-- File-level: `modified_lines` is contained in `added_lines` for every
parse, since the heuristic only ever re-marks numbers recorded as added. -/
theorem modified_subset_added (hs : List RawHunk) :
    ∀ cur n, n ∈ (processHunks cur hs).modified_lines →
      n ∈ (processHunks cur hs).added_lines := by
  induction hs with
  | nil => intro cur n h; simp [processHunks] at h
  | cons h hs ih =>
    intro cur n hmem
    simp only [processHunks, List.mem_append] at hmem ⊢
    cases hmem with
    | inl hm => exact Or.inl (hunkModified_subset_added _ _ _ hm)
    | inr hm => exact Or.inr (ih _ n hm)

/-- C1 (amended): with a non-empty classified-line sequence, each classified
line is rendered as `<marker> <line_number in 4 columns>: <content>` where
the marker is `+` exactly when the line number is in the added set, `~`
exactly when it is in the modified set but not the added set, and a space
otherwise; every line reclassified Modified by the heuristic is also in the
added set and is therefore rendered with `+`, not `~`. -/
theorem context_marker_added_wins (path : String) (hunks : List RawHunk)
    (hne : (buildFileContext path hunks).new_file_lines ≠ []) :
    (∀ n ∈ (buildFileContext path hunks).modified_lines,
      n ∈ (buildFileContext path hunks).added_lines) ∧
    (buildFileContext path hunks).context_text
      = String.intercalate "\n"
          ((("File: " ++ path) :: eqSeparator ::
            (buildFileContext path hunks).new_file_lines.map (fun p =>
              (if (buildFileContext path hunks).added_lines.contains p.1 then "+"
               else if (buildFileContext path hunks).modified_lines.contains p.1 then "~"
               else " ")
              ++ " " ++ pad4 p.1 ++ ": " ++ stripNewlines p.2)) ++ [eqSeparator]) := by
  constructor
  · intro n hn
    simp only [buildFileContext] at hn ⊢
    exact modified_subset_added hunks 1 n hn
  · simp only [buildFileContext] at hne ⊢
    rw [formatContextText, if_neg]
    simp [hne]

/-- C1 amended witness: the rendering equation at a concrete one-hunk diff. -/
theorem context_marker_added_wins_witness :
    (buildFileContext "g" [⟨1, 1, [⟨.added, "x\n"⟩]⟩]).context_text
      = String.intercalate "\n"
          ((("File: " ++ "g") :: eqSeparator ::
            (buildFileContext "g" [⟨1, 1, [⟨.added, "x\n"⟩]⟩]).new_file_lines.map (fun p =>
              (if (buildFileContext "g" [⟨1, 1, [⟨.added, "x\n"⟩]⟩]).added_lines.contains p.1
                  then "+"
               else if (buildFileContext "g"
                  [⟨1, 1, [⟨.added, "x\n"⟩]⟩]).modified_lines.contains p.1 then "~"
               else " ")
              ++ " " ++ pad4 p.1 ++ ": " ++ stripNewlines p.2)) ++ [eqSeparator]) :=
  (context_marker_added_wins "g" [⟨1, 1, [⟨.added, "x\n"⟩]⟩] (by decide)).2

/-- Cons equation for the added/context count. -/
theorem countAC_cons (l : RawHunkLine) (ls : List RawHunkLine) :
    countAC (l :: ls) = countAC ls + (if l.kind = .removed then 0 else 1) := by
  cases hk : l.kind <;> simp [countAC, List.countP_cons, hk]

/-- Added/context and removed counts partition the body length. -/
theorem countAC_add_removed (ls : List RawHunkLine) :
    countAC ls + ls.countP (fun l => l.kind = .removed) = ls.length := by
  induction ls with
  | nil => rfl
  | cons l ls ih =>
    rw [countAC_cons]
    cases hk : l.kind <;> simp [List.countP_cons, hk] <;> omega

/-- With no removed lines in the body, the added/context count of a prefix is
its length. -/
theorem countAC_take_eq (ls : List RawHunkLine)
    (hrem : ls.countP (fun l => l.kind = .removed) = 0) (i : Nat)
    (hi : i ≤ ls.length) : countAC (ls.take i) = i := by
  have h1 : (ls.take i).countP (fun l => l.kind = .removed) = 0 :=
    Nat.le_zero.mp (hrem ▸ (List.take_sublist i ls).countP_le _)
  have h2 := countAC_add_removed (ls.take i)
  rw [h1] at h2
  simp only [List.length_take] at h2
  omega

/-- The number of added positions equals the number of added body lines. -/
theorem addedNums_length (ls : List RawHunkLine) :
    ∀ t, (addedNums t ls).length = ls.countP (fun l => l.kind = .added) := by
  induction ls with
  | nil => intro t; simp [addedNums]
  | cons l ls ih =>
    intro t
    cases hk : l.kind <;> simp [addedNums, hk, List.countP_cons, ih]

/-- Membership in the added-position list, characterized by the index of the
added body line that produces it. -/
theorem mem_addedNums_iff (ls : List RawHunkLine) :
    ∀ (t n : Nat), n ∈ addedNums t ls ↔
      ∃ i l, ls[i]? = some l ∧ l.kind = .added ∧ n = t + countAC (ls.take i) := by
  induction ls with
  | nil => intro t n; simp [addedNums]
  | cons l ls ih =>
    intro t n
    cases hk : l.kind with
    | added =>
      simp only [addedNums, hk, List.mem_cons]
      constructor
      · rintro (rfl | h)
        · exact ⟨0, l, by simp, hk, by simp [countAC]⟩
        · obtain ⟨i, l2, h1, h2, h3⟩ := (ih (t + 1) n).mp h
          refine ⟨i + 1, l2, by simpa using h1, h2, ?_⟩
          rw [List.take_succ_cons, countAC_cons, hk]
          simp at h3 ⊢
          omega
      · rintro ⟨i, l2, h1, h2, h3⟩
        cases i with
        | zero =>
          simp only [List.getElem?_cons_zero, Option.some.injEq] at h1
          subst h1
          left
          simpa [countAC] using h3
        | succ j =>
          right
          refine (ih (t + 1) n).mpr ⟨j, l2, by simpa using h1, h2, ?_⟩
          rw [List.take_succ_cons, countAC_cons, hk] at h3
          simp at h3 ⊢
          omega
    | removed =>
      simp only [addedNums, hk]
      constructor
      · intro h
        obtain ⟨i, l2, h1, h2, h3⟩ := (ih t n).mp h
        refine ⟨i + 1, l2, by simpa using h1, h2, ?_⟩
        rw [List.take_succ_cons, countAC_cons, hk]
        simpa using h3
      · rintro ⟨i, l2, h1, h2, h3⟩
        cases i with
        | zero =>
          simp only [List.getElem?_cons_zero, Option.some.injEq] at h1
          subst h1
          rw [hk] at h2
          cases h2
        | succ j =>
          refine (ih t n).mpr ⟨j, l2, by simpa using h1, h2, ?_⟩
          rw [List.take_succ_cons, countAC_cons, hk] at h3
          simpa using h3
    | context =>
      simp only [addedNums, hk]
      constructor
      · intro h
        obtain ⟨i, l2, h1, h2, h3⟩ := (ih (t + 1) n).mp h
        refine ⟨i + 1, l2, by simpa using h1, h2, ?_⟩
        rw [List.take_succ_cons, countAC_cons, hk]
        simp at h3 ⊢
        omega
      · rintro ⟨i, l2, h1, h2, h3⟩
        cases i with
        | zero =>
          simp only [List.getElem?_cons_zero, Option.some.injEq] at h1
          subst h1
          rw [hk] at h2
          cases h2
        | succ j =>
          refine (ih (t + 1) n).mpr ⟨j, l2, by simpa using h1, h2, ?_⟩
          rw [List.take_succ_cons, countAC_cons, hk] at h3
          simp at h3 ⊢
          omega

/-- Annotation preserves the absence of removed lines. -/
theorem annotate_no_removed (ls : List RawHunkLine)
    (h : ∀ l ∈ ls, l.kind ≠ .removed) :
    ∀ src tgt, ∀ x ∈ annotateLines src tgt ls, x.kind ≠ .removed := by
  induction ls with
  | nil => intro src tgt x hx; simp [annotateLines] at hx
  | cons l ls ih =>
    intro src tgt x hx
    have hl := h l (by simp)
    have hrest : ∀ a ∈ ls, a.kind ≠ .removed := fun a ha => h a (by simp [ha])
    cases hk : l.kind with
    | added =>
      simp only [annotateLines, hk, List.mem_cons] at hx
      cases hx with
      | inl he => subst he; simp
      | inr he => exact ih hrest src (tgt + 1) x he
    | removed => exact absurd hk hl
    | context =>
      simp only [annotateLines, hk, List.mem_cons] at hx
      cases hx with
      | inl he => subst he; simp
      | inr he => exact ih hrest (src + 1) (tgt + 1) x he

/-- A hunk with no removed lines produces no Modified reclassification. -/
theorem hunkModified_of_no_removed (L : List HunkLine)
    (h : ∀ x ∈ L, x.kind ≠ .removed) : hunkModified L = [] := by
  induction L with
  | nil => rfl
  | cons a tail ih =>
    cases tail with
    | nil => rfl
    | cons b rest =>
      have ha := h a (by simp)
      have hunf : hunkModified (a :: b :: rest)
          = (if a.kind = .removed ∧ b.kind = .added ∧ b.target_line_no ≠ 0 ∧
                ((b.target_line_no : Int) - (a.source_line_no : Int)).natAbs ≤ 3 then
              [b.target_line_no]
            else []) ++ hunkModified (b :: rest) := rfl
      rw [hunf, if_neg (fun hc => ha hc.1)]
      simpa using ih (fun x hx => h x (by simp [hx]))

/-- Evaluation of the single-hunk parse with a positive target start: the
fast-forwarded counter makes the loop emit the annotated collections. -/
theorem processHunks_single (src tgt : Nat) (ls : List RawHunkLine)
    (ht : 1 ≤ tgt) :
    processHunks 1 [⟨src, tgt, ls⟩]
      = ⟨tgt + countAC ls, numberAC tgt ls, addedNums tgt ls,
          hunkModified (annotateLines src tgt ls), removedNums src ls⟩ := by
  have hcur : (if 1 < tgt then tgt else 1) = tgt := by split <;> omega
  simp only [processHunks, RawHunk.annotated, hcur,
    processLines_annotate ls tgt src tgt ht]
  simp

/-- C4: for a diff consisting solely of added lines within the one hunk
`@@ -10,5 +10,7 @@` — seven body lines, two added, none removed — the
resulting `FileContext` carries exactly line numbers 10 through 16, the two
injected lines are the added ones, no line is reclassified Modified, and a
line number `10 + i` is in the added set exactly when the `i`-th body line is
an added line. -/
theorem added_only_hunk_numbers (path : String) (ls : List RawHunkLine)
    (hlen : ls.length = 7)
    (hadd : ls.countP (fun l => l.kind = .added) = 2)
    (hrem : ls.countP (fun l => l.kind = .removed) = 0) :
    (buildFileContext path [⟨10, 10, ls⟩]).new_file_lines.map Prod.fst
        = [10, 11, 12, 13, 14, 15, 16] ∧
    (buildFileContext path [⟨10, 10, ls⟩]).modified_lines = [] ∧
    (buildFileContext path [⟨10, 10, ls⟩]).added_lines.length = 2 ∧
    ∀ (i : Nat) (l : RawHunkLine), ls[i]? = some l →
      ((10 + i) ∈ (buildFileContext path [⟨10, 10, ls⟩]).added_lines
        ↔ l.kind = .added) := by
  have hAC : countAC ls = 7 := by
    have := countAC_add_removed ls
    omega
  have hproc := processHunks_single 10 10 ls (by omega)
  have hfst : (numberAC 10 ls).map Prod.fst = List.range' 10 7 := by
    rw [numberAC_map_fst, hAC]
  have hpair : (numberAC 10 ls).Pairwise (fun a b => a.1 < b.1) := by
    rw [← List.pairwise_map (f := Prod.fst), hfst]
    exact List.pairwise_lt_range' 10 7
  have hsort : sortByNum (numberAC 10 ls) = numberAC 10 ls :=
    sortByNum_eq_self _ hpair
  have hmod : hunkModified (annotateLines 10 10 ls) = [] :=
    hunkModified_of_no_removed _
      (annotate_no_removed ls (fun l hl => by
        intro hk
        have := List.countP_eq_zero.mp hrem l hl
        simp [hk] at this) 10 10)
  refine ⟨?_, ?_, ?_, ?_⟩
  · simp only [buildFileContext, hproc, hsort, hfst]
    rfl
  · simp only [buildFileContext, hproc, hmod]
  · simp only [buildFileContext, hproc]
    rw [addedNums_length, hadd]
  · intro i l hi
    have hilen : i < ls.length := by
      by_contra hge
      rw [List.getElem?_eq_none (by omega)] at hi
      cases hi
    simp only [buildFileContext, hproc]
    rw [mem_addedNums_iff]
    constructor
    · rintro ⟨j, l2, g1, g2, g3⟩
      have hjlen : j < ls.length := by
        by_contra hge
        rw [List.getElem?_eq_none (by omega)] at g1
        cases g1
      rw [countAC_take_eq ls hrem j (by omega)] at g3
      have hij : i = j := by omega
      subst hij
      rw [hi] at g1
      cases g1
      exact g2
    · intro hkind
      exact ⟨i, l, hi, hkind, by rw [countAC_take_eq ls hrem i (by omega)]⟩

/-- C4 witness: the concrete hunk `@@ -10,5 +10,7 @@` whose third and fourth
body lines are the injected additions. -/
theorem added_only_hunk_numbers_witness :
    (buildFileContext "m" [⟨10, 10,
        [⟨.context, "c1\n"⟩, ⟨.context, "c2\n"⟩, ⟨.added, "a1\n"⟩, ⟨.added, "a2\n"⟩,
         ⟨.context, "c3\n"⟩, ⟨.context, "c4\n"⟩, ⟨.context, "c5\n"⟩]⟩]).new_file_lines.map
        Prod.fst
      = [10, 11, 12, 13, 14, 15, 16] ∧
    (buildFileContext "m" [⟨10, 10,
        [⟨.context, "c1\n"⟩, ⟨.context, "c2\n"⟩, ⟨.added, "a1\n"⟩, ⟨.added, "a2\n"⟩,
         ⟨.context, "c3\n"⟩, ⟨.context, "c4\n"⟩, ⟨.context, "c5\n"⟩]⟩]).modified_lines
      = [] :=
  ⟨(added_only_hunk_numbers "m"
      [⟨.context, "c1\n"⟩, ⟨.context, "c2\n"⟩, ⟨.added, "a1\n"⟩, ⟨.added, "a2\n"⟩,
       ⟨.context, "c3\n"⟩, ⟨.context, "c4\n"⟩, ⟨.context, "c5\n"⟩]
      (by decide) (by decide) (by decide)).1,
   (added_only_hunk_numbers "m"
      [⟨.context, "c1\n"⟩, ⟨.context, "c2\n"⟩, ⟨.added, "a1\n"⟩, ⟨.added, "a2\n"⟩,
       ⟨.context, "c3\n"⟩, ⟨.context, "c4\n"⟩, ⟨.context, "c5\n"⟩]
      (by decide) (by decide) (by decide)).2.1⟩

/-- Under the non-overlap chain condition, the numbers emitted by the hunk
loop are strictly increasing and bounded below by the running counter. -/
theorem processHunks_strict_anchored (hs : List RawHunk) :
    ∀ c, hunksChainOk c hs = true → 1 ≤ c →
      (((processHunks c hs).new_file_lines.map Prod.fst).Pairwise (· < ·) ∧
       ∀ n ∈ (processHunks c hs).new_file_lines.map Prod.fst, c ≤ n) := by
  induction hs with
  | nil => intro c hc h1; simp [processHunks]
  | cons h hs ih =>
    intro c hc h1
    rw [hunksChainOk, Bool.and_eq_true, decide_eq_true_eq] at hc
    obtain ⟨hts, hchain⟩ := hc
    have hcur : (if c < h.target_start then h.target_start else c) = h.target_start := by
      split <;> omega
    have htgt : 1 ≤ h.target_start := by omega
    have hrest := ih (h.target_start + countAC h.lines) hchain (by omega)
    simp only [processHunks, RawHunk.annotated, hcur,
      processLines_annotate h.lines h.target_start h.source_start h.target_start htgt]
    simp only [List.map_append]
    rw [numberAC_map_fst]
    constructor
    · rw [List.pairwise_append]
      refine ⟨List.pairwise_lt_range' h.target_start (countAC h.lines), hrest.1, ?_⟩
      intro a ha b hb
      rw [List.mem_range'_1] at ha
      have := hrest.2 b hb
      omega
    · intro n hn
      rw [List.mem_append] at hn
      cases hn with
      | inl hm => rw [List.mem_range'_1] at hm; omega
      | inr hm => have := hrest.2 n hm; omega

/-- C5: for a parse whose hunks are in file order with non-overlapping target
ranges (the spec's data-model precondition), the line numbers of the
classified-line sequence are strictly increasing, hence free of duplicates. -/
theorem classified_numbers_strict_mono (path : String) (hunks : List RawHunk)
    (hwf : hunksChainOk 1 hunks = true) :
    ((buildFileContext path hunks).new_file_lines.map Prod.fst).Pairwise (· < ·) ∧
    ((buildFileContext path hunks).new_file_lines.map Prod.fst).Nodup := by
  have hmain := processHunks_strict_anchored hunks 1 hwf (by omega)
  have hpairs : (processHunks 1 hunks).new_file_lines.Pairwise (fun a b => a.1 < b.1) :=
    (List.pairwise_map).mp hmain.1
  have hsort : sortByNum (processHunks 1 hunks).new_file_lines
      = (processHunks 1 hunks).new_file_lines :=
    sortByNum_eq_self _ hpairs
  constructor
  · simp only [buildFileContext]
    rw [hsort]
    exact hmain.1
  · simp only [buildFileContext]
    rw [hsort]
    exact List.Pairwise.imp (fun hlt => Nat.ne_of_lt hlt) hmain.1

/-- C5 witness: two non-overlapping hunks yield strictly increasing,
duplicate-free classified numbers. -/
theorem classified_numbers_strict_mono_witness :
    hunksChainOk 1
        [(⟨1, 1, [⟨.added, "a\n"⟩]⟩ : RawHunk), ⟨5, 5, [⟨.context, "c\n"⟩]⟩] = true ∧
    ((buildFileContext "w"
        [⟨1, 1, [⟨.added, "a\n"⟩]⟩, ⟨5, 5, [⟨.context, "c\n"⟩]⟩]).new_file_lines.map
          Prod.fst).Pairwise (· < ·) ∧
    ((buildFileContext "w"
        [⟨1, 1, [⟨.added, "a\n"⟩]⟩, ⟨5, 5, [⟨.context, "c\n"⟩]⟩]).new_file_lines.map
          Prod.fst).Nodup :=
  ⟨by decide,
   (classified_numbers_strict_mono "w"
      [⟨1, 1, [⟨.added, "a\n"⟩]⟩, ⟨5, 5, [⟨.context, "c\n"⟩]⟩] (by decide)).1,
   (classified_numbers_strict_mono "w"
      [⟨1, 1, [⟨.added, "a\n"⟩]⟩, ⟨5, 5, [⟨.context, "c\n"⟩]⟩] (by decide)).2⟩

/-- C3: in a parsed hunk with positive declared target start, an added line
is reclassified Modified exactly when a removed line immediately precedes it
in the same hunk body and the added line's target position differs from the
removed line's source position by at most 3 in absolute value; the target
position of the line at index `i + 1` is `target_start` plus the
added/context count of the prefix, the source position of the line at index
`i` is `source_start` plus the removed/context count of the prefix. -/
theorem heuristic_reclassify_iff (h : RawHunk) (hts : 1 ≤ h.target_start) (n : Nat) :
    n ∈ hunkModified h.annotated ↔
      ∃ (i : Nat) (a b : RawHunkLine), h.lines[i]? = some a ∧
        h.lines[i + 1]? = some b ∧
        a.kind = .removed ∧ b.kind = .added ∧
        n = h.target_start + countAC (h.lines.take (i + 1)) ∧
        ((n : Int)
          - ((h.source_start + countSC (h.lines.take i) : Nat) : Int)).natAbs ≤ 3 := by
  rw [RawHunk.annotated, mem_hunkModified_iff]
  constructor
  · rintro ⟨i, x, y, g1, g2, g3, g4, g5, g6, g7⟩
    rw [annotate_getElem, annotEntry] at g1 g2
    cases ha : h.lines[i]? with
    | none => rw [ha] at g1; cases g1
    | some a =>
      rw [ha] at g1
      cases hb : h.lines[i + 1]? with
      | none => rw [hb] at g2; cases g2
      | some b =>
        rw [hb] at g2
        simp only [Option.map_some', Option.some.injEq] at g1 g2
        cases hak : a.kind with
        | added => rw [hak] at g1; subst g1; simp at g3
        | context => rw [hak] at g1; subst g1; simp at g3
        | removed =>
          rw [hak] at g1
          subst g1
          cases hbk : b.kind with
          | removed => rw [hbk] at g2; subst g2; simp at g4
          | context => rw [hbk] at g2; subst g2; simp at g4
          | added =>
            rw [hbk] at g2
            subst g2
            simp only at g6 g7
            exact ⟨i, a, b, ha, hb, hak, hbk, g7, by rw [g7]; exact g6⟩
  · rintro ⟨i, a, b, ha, hb, hak, hbk, hn, hd⟩
    have hx : (annotateLines h.source_start h.target_start h.lines)[i]?
        = some ⟨.removed, a.value, h.source_start + countSC (h.lines.take i), 0⟩ := by
      rw [annotate_getElem, annotEntry, ha]
      simp [hak]
    have hy : (annotateLines h.source_start h.target_start h.lines)[i + 1]?
        = some ⟨.added, b.value, 0, h.target_start + countAC (h.lines.take (i + 1))⟩ := by
      rw [annotate_getElem, annotEntry, hb]
      simp [hbk]
    refine ⟨i, _, _, hx, hy, rfl, rfl,
      by show h.target_start + countAC (h.lines.take (i + 1)) ≠ 0; omega, ?_, hn⟩
    show (((h.target_start + countAC (h.lines.take (i + 1)) : Nat) : Int)
        - ((h.source_start + countSC (h.lines.take i) : Nat) : Int)).natAbs ≤ 3
    rw [← hn]
    exact hd

/-- C3 witness: a removed line at source position 100 followed by an added
line at target position 103 is reclassified Modified (distance 3), while one
whose added line sits at target position 104 is not (distance 4). -/
theorem heuristic_reclassify_iff_witness :
    (1 : Nat) ≤ (103 : Nat) ∧
    103 ∈ hunkModified
        (RawHunk.annotated ⟨100, 103, [⟨.removed, "a\n"⟩, ⟨.added, "b\n"⟩]⟩) ∧
    104 ∉ hunkModified
        (RawHunk.annotated ⟨100, 104, [⟨.removed, "a\n"⟩, ⟨.added, "b\n"⟩]⟩) :=
  ⟨by decide,
   (heuristic_reclassify_iff ⟨100, 103, [⟨.removed, "a\n"⟩, ⟨.added, "b\n"⟩]⟩
      (by decide) 103).mpr
     ⟨0, ⟨.removed, "a\n"⟩, ⟨.added, "b\n"⟩, by decide, by decide, rfl, rfl,
      by decide, by decide⟩,
   by decide⟩

/-- The line loop with a budget emits exactly the first `maxr - cnt` of the
uncapped blocks and advances the count by the number it emits. -/
theorem scanFrom_take (search : String → Bool) (ctx maxr : Nat) (relPath : String)
    (allLines : List String) (rest : List String) :
    ∀ (n cnt : Nat), cnt < maxr →
      scanFrom search ctx maxr relPath allLines rest n cnt
        = ((lineBlocks search ctx relPath allLines rest n).take (maxr - cnt),
           cnt + min (maxr - cnt) (lineBlocks search ctx relPath allLines rest n).length) := by
  induction rest with
  | nil => intro n cnt h; simp [scanFrom, lineBlocks]
  | cons l ls ih =>
    intro n cnt h
    by_cases hs : search l
    · simp only [scanFrom, lineBlocks, hs, if_true, List.singleton_append]
      by_cases hstop : maxr ≤ cnt + 1
      · have h1 : maxr - cnt = 1 := by omega
        rw [if_pos hstop, h1, List.take_succ_cons, List.take_zero]
        simp only [List.length_cons, Prod.mk.injEq, true_and]
        omega
      · rw [if_neg hstop, ih (n + 1) (cnt + 1) (by omega)]
        obtain ⟨k, hk⟩ : ∃ k, maxr - cnt = k + 1 := ⟨maxr - cnt - 1, by omega⟩
        have h2 : maxr - (cnt + 1) = k := by omega
        rw [hk, h2, List.take_succ_cons]
        simp only [List.length_cons, Prod.mk.injEq, List.cons.injEq, true_and]
        omega
    · simp only [scanFrom, lineBlocks, hs, if_false, Bool.false_eq_true, not_false_iff,
        List.nil_append]
      exact ih (n + 1) cnt h

/-- The walk with a budget emits exactly the first `maxr - cnt` of the
uncapped blocks. -/
theorem grepWalk_take (search : String → Bool) (fnm : String → String → Bool)
    (inc exc : List String) (ctx maxr : Nat) (walk : List (String × GFile)) :
    ∀ cnt, cnt < maxr →
      grepWalk search fnm inc exc ctx maxr walk cnt
        = (allBlocks search fnm inc exc ctx walk).take (maxr - cnt) := by
  induction walk with
  | nil => intro cnt h; simp [grepWalk, allBlocks]
  | cons e rest ih =>
    obtain ⟨relPath, f⟩ := e
    intro cnt h
    by_cases hadm : fileAdmitted fnm inc exc relPath f
    · by_cases hbin : isBinaryFile f
      · simp [grepWalk, allBlocks, hadm, hbin, ih cnt h]
      · by_cases hlok : f.lines_ok
        · have hall : allBlocks search fnm inc exc ctx ((relPath, f) :: rest)
              = lineBlocks search ctx relPath f.lines f.lines 1
                ++ allBlocks search fnm inc exc ctx rest := by
            rw [allBlocks, if_pos (by simp [hadm, hbin, hlok])]
          rw [grepWalk, if_neg (by simp [hadm]), if_neg (by simp [hbin]),
            if_neg (by simp [hlok]),
            scanFrom_take search ctx maxr relPath f.lines f.lines 1 cnt h,
            hall, List.take_append_eq_append_take]
          by_cases hstop : maxr ≤ cnt + min (maxr - cnt)
              (lineBlocks search ctx relPath f.lines f.lines 1).length
          · have hz : maxr - cnt
                - (lineBlocks search ctx relPath f.lines f.lines 1).length = 0 := by
              omega
            simp only [hstop, if_true, hz, List.take_zero, List.append_nil]
          · have hlen : min (maxr - cnt)
                (lineBlocks search ctx relPath f.lines f.lines 1).length
                = (lineBlocks search ctx relPath f.lines f.lines 1).length := by
              omega
            simp only [hstop, if_false]
            rw [hlen, ih _ (by omega),
              List.take_of_length_le (by omega)]
            have hsub : maxr - (cnt + (lineBlocks search ctx relPath f.lines f.lines 1).length)
                = maxr - cnt - (lineBlocks search ctx relPath f.lines f.lines 1).length := by
              omega
            rw [hsub]
        · simp [grepWalk, allBlocks, hadm, hbin, hlok, ih cnt h]
    · simp [grepWalk, allBlocks, hadm, ih cnt h]

/-- C6: the walk stops globally — across files, not just within one — as soon
as `max_results` blocks have been emitted: for any positive `max_results` the
emitted blocks are exactly the first `max_results` of the uncapped block
sequence, which lists files in walker order and lines in ascending order; in
particular when at least `max_results` matches exist, exactly `max_results`
blocks are returned. -/
theorem grep_stops_at_max (search : String → Bool) (fnm : String → String → Bool)
    (inc exc : List String) (ctx maxr : Nat) (walk : List (String × GFile))
    (hmax : 1 ≤ maxr) :
    grepWalk search fnm inc exc ctx maxr walk 0
      = (allBlocks search fnm inc exc ctx walk).take maxr ∧
    (maxr ≤ (allBlocks search fnm inc exc ctx walk).length →
      (grepWalk search fnm inc exc ctx maxr walk 0).length = maxr) := by
  have h := grepWalk_take search fnm inc exc ctx maxr walk 0 (by omega)
  rw [Nat.sub_zero] at h
  refine ⟨h, ?_⟩
  intro hlen
  rw [h, List.length_take]
  omega

/-- C6 witness: three matching lines across two files with `max_results = 2`
yield exactly the first two blocks. -/
theorem grep_stops_at_max_witness :
    grepWalk (fun s => s == "hit") (fun _ _ => true) ["*"] [] 0 2
        [("a.txt", ⟨"a.txt", [104], true, ["hit", "miss", "hit"], true⟩),
         ("b.txt", ⟨"b.txt", [104], true, ["hit"], true⟩)] 0
      = (allBlocks (fun s => s == "hit") (fun _ _ => true) ["*"] [] 0
          [("a.txt", ⟨"a.txt", [104], true, ["hit", "miss", "hit"], true⟩),
           ("b.txt", ⟨"b.txt", [104], true, ["hit"], true⟩)]).take 2 ∧
    (grepWalk (fun s => s == "hit") (fun _ _ => true) ["*"] [] 0 2
        [("a.txt", ⟨"a.txt", [104], true, ["hit", "miss", "hit"], true⟩),
         ("b.txt", ⟨"b.txt", [104], true, ["hit"], true⟩)] 0).length = 2 :=
  ⟨(grep_stops_at_max (fun s => s == "hit") (fun _ _ => true) ["*"] [] 0 2
      [("a.txt", ⟨"a.txt", [104], true, ["hit", "miss", "hit"], true⟩),
       ("b.txt", ⟨"b.txt", [104], true, ["hit"], true⟩)] (by decide)).1,
   (grep_stops_at_max (fun s => s == "hit") (fun _ _ => true) ["*"] [] 0 2
      [("a.txt", ⟨"a.txt", [104], true, ["hit", "miss", "hit"], true⟩),
       ("b.txt", ⟨"b.txt", [104], true, ["hit"], true⟩)] (by decide)).2 (by decide)⟩

/-- C7: the search always returns a string (the embedding is total, mirroring
the source's catch-all error handling): a missing or non-directory root
yields the root error string, a failing regex compilation under `is_regex`
yields the invalid-pattern error string, and an empty match list yields the
literal sentinel `No matches found for pattern: <pattern>` rather than an
empty success. -/
theorem grep_always_string (eng : RegexEngine) (fnm : String → String → Bool)
    (repoRoot : String) (walk : List (String × GFile)) (q : GrepQuery) :
    (grepInternal eng fnm repoRoot false walk q
      = "Error: Repository root does not exist: " ++ repoRoot) ∧
    (∀ e, q.is_regex = true → eng.compile q.pattern q.case_sensitive = .error e →
      grepInternal eng fnm repoRoot true walk q
        = "Error: Invalid regex pattern: " ++ q.pattern ++ "\n" ++ e) ∧
    (∀ search,
      (if q.is_regex then eng.compile q.pattern q.case_sensitive
       else Except.ok (eng.literal q.pattern q.case_sensitive)) = .ok search →
      grepWalk search fnm q.include_patterns q.exclude_patterns q.context_lines
          q.max_results walk 0 = [] →
      grepInternal eng fnm repoRoot true walk q
        = "No matches found for pattern: " ++ q.pattern) := by
  refine ⟨rfl, ?_, ?_⟩
  · intro e hreg hcomp
    rw [grepInternal]
    simp only [Bool.not_true, Bool.false_eq_true, if_false, hreg, if_true, hcomp]
  · intro search hcomp hempty
    rw [grepInternal]
    simp only [Bool.not_true, Bool.false_eq_true, if_false, hcomp]
    simp [hempty]

/-- C7 witness: the three outcome strings at concrete inputs. -/
theorem grep_always_string_witness :
    grepInternal ⟨fun _ _ => Except.error "boom", fun _ _ _ => false⟩
        (fun _ _ => true) "/repo" false [] ⟨"p", true, true, ["*"], [], 10, 50⟩
      = "Error: Repository root does not exist: /repo" ∧
    grepInternal ⟨fun _ _ => Except.error "boom", fun _ _ _ => false⟩
        (fun _ _ => true) "/repo" true [] ⟨"p", true, true, ["*"], [], 10, 50⟩
      = "Error: Invalid regex pattern: p\nboom" ∧
    grepInternal ⟨fun _ _ => Except.ok (fun _ => false), fun _ _ _ => false⟩
        (fun _ _ => true) "/repo" true [] ⟨"p", true, true, ["*"], [], 10, 50⟩
      = "No matches found for pattern: p" :=
  ⟨(grep_always_string ⟨fun _ _ => Except.error "boom", fun _ _ _ => false⟩
      (fun _ _ => true) "/repo" [] ⟨"p", true, true, ["*"], [], 10, 50⟩).1,
   (grep_always_string ⟨fun _ _ => Except.error "boom", fun _ _ _ => false⟩
      (fun _ _ => true) "/repo" [] ⟨"p", true, true, ["*"], [], 10, 50⟩).2.1
     "boom" rfl rfl,
   (grep_always_string ⟨fun _ _ => Except.ok (fun _ => false), fun _ _ _ => false⟩
      (fun _ _ => true) "/repo" [] ⟨"p", true, true, ["*"], [], 10, 50⟩).2.2
     (fun _ => false) rfl rfl⟩

/-- A binary-classified file contributes nothing to the walk: removing it
from the walked sequence leaves the emitted blocks unchanged. -/
theorem grepWalk_skip_binary (search : String → Bool) (fnm : String → String → Bool)
    (inc exc : List String) (ctx maxr : Nat) (relPath : String) (f : GFile)
    (hbin : isBinaryFile f = true) (w2 : List (String × GFile)) :
    ∀ (w1 : List (String × GFile)) (cnt : Nat),
      grepWalk search fnm inc exc ctx maxr (w1 ++ (relPath, f) :: w2) cnt
        = grepWalk search fnm inc exc ctx maxr (w1 ++ w2) cnt := by
  intro w1
  induction w1 with
  | nil =>
    intro cnt
    by_cases hadm : fileAdmitted fnm inc exc relPath f <;>
      simp [grepWalk, hadm, hbin]
  | cons e w1 ih =>
    obtain ⟨rp, g⟩ := e
    intro cnt
    by_cases hadm : fileAdmitted fnm inc exc rp g
    · by_cases hbin2 : isBinaryFile g
      · simpa [grepWalk, hadm, hbin2] using ih cnt
      · by_cases hlok : g.lines_ok
        · simp only [List.cons_append, grepWalk, hadm, hbin2, hlok, Bool.not_true,
            Bool.not_false, Bool.false_eq_true, if_false, if_true]
          split
          · rfl
          · simp only [List.append_eq]
            rw [ih _]
        · simpa [grepWalk, hadm, hbin2, hlok] using ih cnt
    · simpa [grepWalk, hadm] using ih cnt

/-- C8: a file whose first 8 KiB sample contains a null byte is classified
binary, as is one whose probing read fails or whose sampled bytes are less
than 70% printable ASCII or tab/newline/carriage-return; and a binary file is
never scanned — its presence anywhere in the walk leaves the emitted match
blocks unchanged regardless of matching content in its lines. -/
theorem binary_detection_and_skip (f : GFile) (search : String → Bool)
    (fnm : String → String → Bool) (inc exc : List String) (ctx maxr : Nat)
    (w1 w2 : List (String × GFile)) (relPath : String) (cnt : Nat) :
    (0 ∈ f.bytes.take 8192 → isBinaryFile f = true) ∧
    (f.read_ok = false → isBinaryFile f = true) ∧
    ((f.bytes.take 8192).countP
        (fun b => (32 ≤ b && b < 127) || b == 9 || b == 10 || b == 13) * 10
        < (f.bytes.take 8192).length * 7 → isBinaryFile f = true) ∧
    (isBinaryFile f = true →
      grepWalk search fnm inc exc ctx maxr (w1 ++ (relPath, f) :: w2) cnt
        = grepWalk search fnm inc exc ctx maxr (w1 ++ w2) cnt) := by
  refine ⟨?_, ?_, ?_, ?_⟩
  · intro hmem
    rw [isBinaryFile]
    cases hro : f.read_ok
    · simp
    · simp only [Bool.not_true, Bool.false_eq_true, if_false]
      rw [if_pos]
      exact List.elem_eq_true_of_mem hmem
  · intro hro
    rw [isBinaryFile, hro]
    simp
  · intro hratio
    rw [isBinaryFile]
    cases hro : f.read_ok
    · simp
    · simp only [Bool.not_true, Bool.false_eq_true, if_false]
      by_cases hcont : (f.bytes.take 8192).contains 0
      · rw [if_pos hcont]
      · rw [if_neg hcont, if_pos]
        have hpos : 0 < (f.bytes.take 8192).length := by
          by_contra hz
          have : (f.bytes.take 8192).length = 0 := by omega
          have hcz : (f.bytes.take 8192).countP
              (fun b => (32 ≤ b && b < 127) || b == 9 || b == 10 || b == 13)
              ≤ (f.bytes.take 8192).length := List.countP_le_length _
          omega
        simp only [Bool.and_eq_true, decide_eq_true_eq]
        exact ⟨hpos, hratio⟩
  · intro hbin
    exact grepWalk_skip_binary search fnm inc exc ctx maxr relPath f hbin w2 w1 cnt

/-- C8 witness: a file with a null byte in its sample is binary, and dropping
it from a walk in which its lines would match changes nothing. -/
theorem binary_detection_and_skip_witness :
    isBinaryFile ⟨"x.bin", [0, 104], true, ["hit"], true⟩ = true ∧
    grepWalk (fun s => s == "hit") (fun _ _ => true) ["*"] [] 0 2
        [("x.bin", ⟨"x.bin", [0, 104], true, ["hit"], true⟩)] 0
      = grepWalk (fun s => s == "hit") (fun _ _ => true) ["*"] [] 0 2 [] 0 :=
  ⟨(binary_detection_and_skip ⟨"x.bin", [0, 104], true, ["hit"], true⟩
      (fun s => s == "hit") (fun _ _ => true) ["*"] [] 0 2 [] [] "x.bin" 0).1
     (by decide),
   (binary_detection_and_skip ⟨"x.bin", [0, 104], true, ["hit"], true⟩
      (fun s => s == "hit") (fun _ _ => true) ["*"] [] 0 2 [] [] "x.bin" 0).2.2.2
     ((binary_detection_and_skip ⟨"x.bin", [0, 104], true, ["hit"], true⟩
        (fun s => s == "hit") (fun _ _ => true) ["*"] [] 0 2 [] [] "x.bin" 0).1
       (by decide))⟩

end CodeReview
